import Mathlib

/-!
Verification of the emotional-journal MVP core logic: a shallow embedding of
the streak/statistics computation (`utils/data_manager.py`), the rule-based
sentiment analyzer (`utils/sentiment_analyzer_lite.py` and the unused heavier
variant `utils/sentiment_analyzer.py`), the entry-submission validation in
`app.py`, and the persistent entry store (save / get-by-id / delete).

Machine floats of the source are modelled as `Rat`; Python `date` values as
`Int` day numbers; the SQLite table as an in-memory list of rows with an
auto-increment counter.  The external polarity scorer (TextBlob) is modelled
as an `Option Rat` argument: `none` stands for "unavailable or threw".
-/

/-! ## Streak computation (data_manager.py `_calculate_streaks`) -/

/-- Insert an `Int` into a strictly-descending list, skipping duplicates.
Folding this over a list reproduces Python's
`sorted(df['timestamp'].dt.date.unique(), reverse=True)`: the strictly
descending enumeration of the distinct dates. -/
def insertDD (x : Int) : List Int → List Int
  | [] => [x]
  | y :: ys => if y < x then x :: y :: ys else if x = y then y :: ys else y :: insertDD x ys

/-- The strictly-descending list of distinct dates of a history. -/
def sortDescDedup (l : List Int) : List Int := l.foldr insertDD []

/-- Length of the maximal prefix of one-day gaps, counting the head: the
`current_streak` loop of `_calculate_streaks` (`current_streak = 1`, then
`+= 1` while `(dates[i] - dates[i+1]).days == 1`, `break` otherwise). -/
def runLen : List Int → Nat
  | [] => 0
  | [_] => 1
  | a :: b :: rest => if a - b = 1 then 1 + runLen (b :: rest) else 1

/-- Continuation of a one-day-gap run after `prev` (helper for relating the
longest-streak scan to per-suffix run lengths). -/
def runLenFrom : Int → List Int → Nat
  | _, [] => 0
  | prev, b :: rest => if prev - b = 1 then 1 + runLenFrom b rest else 0

/-- The `longest_streak` scan of `_calculate_streaks`: running maximum
`longest`, current run length `temp`, previous date `prev`. -/
def longestAux : Int → Nat → Nat → List Int → Nat
  | _, longest, _, [] => longest
  | prev, longest, temp, b :: rest =>
    if prev - b = 1 then longestAux b (max longest (temp + 1)) (temp + 1) rest
    else longestAux b longest 1 rest

/-- `longest_streak` of the code: `longest = 1, temp = 1`, then scan. -/
def longestScan : List Int → Nat
  | [] => 0
  | a :: rest => longestAux a 1 1 rest

/-- Maximum over all suffixes of the head-run length (specification-side view
of the longest-streak scan). -/
def maxRunLen : List Int → Nat
  | [] => 0
  | a :: rest => max (runLen (a :: rest)) (maxRunLen rest)

/-- Walk backwards one calendar day at a time from `d`, counting days that
have at least one entry; `fuel` bounds the walk (any bound at least the
number of entries is enough).  This is the spec's "count of consecutive
calendar days (by local date, walking backward) with at least one entry". -/
def walkBack (S : List Int) : Nat → Int → Nat
  | 0, _ => 0
  | f + 1, d => if d ∈ S then 1 + walkBack S f (d - 1) else 0

/-- Maximum of a list of naturals (0 for the empty list). -/
def listMaxNat (l : List Nat) : Nat := l.foldr max 0

/-- Maximum of a nonempty list of integers (0 for the empty list): the
"most recent entry date" of a history of dates. -/
def listMaxI : List Int → Int
  | [] => 0
  | [x] => x
  | x :: y :: r => max x (listMaxI (y :: r))

/-- `DataManager._calculate_streaks` on the list of entry dates (each entry's
local calendar date as an `Int` day number) and today's date: returns
`(current_streak, longest_streak)`.  Follows the Python line by line: empty
history gives `(0, 0)`; otherwise dedup + sort descending, current streak is
the prefix run if the newest date is today or yesterday and `0` otherwise,
longest streak is the scan over all one-day gaps. -/
def calculate_streaks (entryDates : List Int) (today : Int) : Nat × Nat :=
  match sortDescDedup entryDates with
  | [] => (0, 0)
  | a :: rest =>
    ((if a = today ∨ a = today - 1 then runLen (a :: rest) else 0),
     longestScan (a :: rest))

/-- Modelled from the spec's words (§4.2 "Current streak"): if the most
recent entry date is today or yesterday, the count of consecutive calendar
days with at least one entry walking backward from it, else 0. -/
def specCurrentStreak (today : Int) (entryDates : List Int) : Nat :=
  match entryDates with
  | [] => 0
  | _ :: _ =>
    let m := listMaxI entryDates
    if m = today ∨ m = today - 1 then walkBack entryDates entryDates.length m else 0

/-- Modelled from the spec's words (§4.2 "Longest streak"): the maximum, over
all distinct entry dates `d`, of the length of the consecutive-day run of
entry dates ending at `d` (equivalently, the maximum run length of
consecutive calendar dates each containing at least one entry). -/
def specLongestStreak (entryDates : List Int) : Nat :=
  listMaxNat (entryDates.dedup.map (fun d => walkBack entryDates entryDates.length d))

/-! ## Keyword extraction (`_extract_keywords`, identical in both analyzers) -/

/-- The fixed stop-word set of `_extract_keywords` (same literal in
`sentiment_analyzer_lite.py` and `sentiment_analyzer.py`). -/
def stop_words : List String :=
  ["the", "a", "an", "and", "or", "but", "in", "on", "at", "to", "for",
   "of", "with", "by", "from", "as", "is", "was", "are", "were", "been",
   "be", "have", "has", "had", "do", "does", "did", "will", "would",
   "could", "should", "may", "might", "can", "i", "you", "he", "she",
   "it", "we", "they", "my", "your", "his", "her", "its", "our", "their",
   "this", "that", "these", "those", "am", "me", "just", "so", "very",
   "really", "too", "much", "more", "most", "some", "any", "all", "both",
   "each", "few", "many", "other", "such", "no", "not", "only", "own",
   "same", "than", "then", "there", "when", "where", "why", "how"]

/-- A regex word character (`\w` over ASCII): letter, digit or underscore. -/
def isWordChar (c : Char) : Bool := c.isAlphanum || c == '_'

/-- An ASCII lowercase letter (`[a-z]`). -/
def isLowerAlpha (c : Char) : Bool := 'a' ≤ c && c ≤ 'z'

/-- Split a character list into maximal runs of characters satisfying `p`
(accumulator holds the current run reversed). -/
def tokensAux (p : Char → Bool) : List Char → List Char → List (List Char)
  | [], acc => if acc.isEmpty then [] else [acc.reverse]
  | c :: cs, acc =>
    if p c then tokensAux p cs (c :: acc)
    else if acc.isEmpty then tokensAux p cs [] else acc.reverse :: tokensAux p cs []

/-- Maximal runs of characters satisfying `p`. -/
def tokens (p : Char → Bool) (l : List Char) : List (List Char) := tokensAux p l []

/-- `text.lower()` over ASCII. -/
def lowerChars (s : String) : List Char := s.data.map Char.toLower

/-- `re.findall(r'\b[a-z]\x7b3,\x7d\b', text.lower())`: the maximal word-character
runs of the lowered text that consist entirely of `[a-z]` and have length at
least 3 (a run containing a digit or underscore has no inner `\b`, so it
matches only if the whole run is lowercase letters). -/
def findLowerWords (text : String) : List String :=
  ((tokens isWordChar (lowerChars text)).filter
      (fun t => decide (3 ≤ t.length) && t.all isLowerAlpha)).map (fun t => String.mk t)

/-- `filtered_words` of `_extract_keywords`: qualifying tokens minus stop
words, in text order (with repetitions). -/
def filtered_words (text : String) : List String :=
  (findLowerWords text).filter (fun w => !(stop_words.contains w))

/-- First-occurrence deduplication (insertion order of `collections.Counter`
keys), with an accumulator of already-seen values. -/
def firstOccsAux : List String → List String → List String
  | [], _ => []
  | x :: xs, seen =>
    if x ∈ seen then firstOccsAux xs seen else x :: firstOccsAux xs (x :: seen)

/-- Distinct values in order of first occurrence. -/
def firstOccs (l : List String) : List String := firstOccsAux l []

/-- Stable insertion into a list sorted by descending `key` (an element is
placed before the first element whose key is not larger, so equal keys keep
their original relative order). -/
def insertDescBy {α : Type} (key : α → Nat) (x : α) : List α → List α
  | [] => [x]
  | y :: ys => if key y ≤ key x then x :: y :: ys else y :: insertDescBy key x ys

/-- Stable sort by descending `key`: Python's `sorted(l, key=key,
reverse=True)` (and `heapq.nlargest`, which is documented equivalent). -/
def sortDescBy {α : Type} (key : α → Nat) (l : List α) : List α :=
  l.foldr (insertDescBy key) []

/-- `Counter(l).most_common(n)` keys: distinct values in first-occurrence
order, stably sorted by descending multiplicity in `l`, truncated to `n`. -/
def most_common (l : List String) (n : Nat) : List String :=
  (sortDescBy (fun w => l.count w) (firstOccs l)).take n

/-- `_extract_keywords(text, top_n)`. -/
def extract_keywords (text : String) (top_n : Nat) : List String :=
  most_common (filtered_words text) top_n

/-! ## Emotion detection -/

/-- `a` is a prefix of `b` (over character lists). -/
def isPrefixL : List Char → List Char → Bool
  | [], _ => true
  | _ :: _, [] => false
  | a :: as, b :: bs => a == b && isPrefixL as bs

/-- Python's `needle in hay` substring test. -/
def containsSub (needle hay : List Char) : Bool :=
  match hay with
  | [] => needle.isEmpty
  | _ :: t => isPrefixL needle hay || containsSub needle t

/-- The emotion-keyword table of `sentiment_analyzer_lite.py`
`_detect_emotions_from_keywords`, in declaration order. -/
def emotion_keywords : List (String × List String) :=
  [("joy", ["happy", "joy", "excited", "wonderful", "amazing", "great", "love",
            "fantastic", "delighted", "thrilled"]),
   ("sadness", ["sad", "depressed", "unhappy", "down", "crying", "tears", "lonely",
                "miss", "disappointed", "heartbroken"]),
   ("anger", ["angry", "mad", "furious", "annoyed", "frustrated", "irritated",
              "hate", "rage", "outraged"]),
   ("fear", ["afraid", "scared", "anxious", "worried", "nervous", "panic",
             "terrified", "frightened"]),
   ("surprise", ["surprised", "shocked", "amazed", "unexpected", "sudden", "wow",
                 "astonished"]),
   ("gratitude", ["grateful", "thankful", "appreciate", "blessed", "lucky",
                  "fortunate", "thanks"]),
   ("hope", ["hope", "optimistic", "looking forward", "excited about",
             "can\x27t wait", "hopeful"]),
   ("stress", ["stressed", "overwhelmed", "pressure", "burden", "exhausted",
               "tired", "burned out"])]

/-- Number of keyword phrases of `kws` occurring as substrings of the lowered
text. -/
def matchCount (textLower : List Char) (kws : List String) : Nat :=
  (kws.filter (fun k => containsSub k.data textLower)).length

/-- The `emotion_scores` dict of the lite detector: each emotion with a
positive match count, in declaration order. -/
def emotionScores (text : String) : List (String × Nat) :=
  (emotion_keywords.map (fun p => (p.1, matchCount (lowerChars text) p.2))).filter
    (fun q => decide (0 < q.2))

/-- The sentiment-derived fallback emotion of both detectors. -/
def fallbackEmotion (sentiment_label : String) : String :=
  if sentiment_label = "POSITIVE" then "joy"
  else if sentiment_label = "NEGATIVE" then "sadness"
  else "neutral"

/-- `sentiment_analyzer_lite._detect_emotions_from_keywords`: positive-count
emotions stably sorted by descending count (Python `sorted(...,
key=lambda x: x[1], reverse=True)`), top 3; sentiment-derived fallback when
nothing matched. -/
def detect_emotions_from_keywords (text : String) (sentiment_label : String) : List String :=
  let scores := emotionScores text
  let detected := if scores.isEmpty then [] else ((sortDescBy Prod.snd scores).map Prod.fst).take 3
  if detected.isEmpty then [fallbackEmotion sentiment_label] else detected

/-- The emotion-keyword table of the heavier `sentiment_analyzer.py` variant
(shorter lists, same 8 emotions). -/
def emotion_keywords_heavy : List (String × List String) :=
  [("joy", ["happy", "joy", "excited", "wonderful", "amazing", "great", "love",
            "fantastic"]),
   ("sadness", ["sad", "depressed", "unhappy", "down", "crying", "tears", "lonely",
                "miss"]),
   ("anger", ["angry", "mad", "furious", "annoyed", "frustrated", "irritated",
              "hate"]),
   ("fear", ["afraid", "scared", "anxious", "worried", "nervous", "panic",
             "terrified"]),
   ("surprise", ["surprised", "shocked", "amazed", "unexpected", "sudden", "wow"]),
   ("gratitude", ["grateful", "thankful", "appreciate", "blessed", "lucky",
                  "fortunate"]),
   ("hope", ["hope", "optimistic", "looking forward", "excited about",
             "can\x27t wait"]),
   ("stress", ["stressed", "overwhelmed", "pressure", "burden", "exhausted",
               "tired"])]

/-- `sentiment_analyzer._detect_emotions_from_keywords` (heavy variant): an
emotion is appended, in declaration order, whenever ANY of its keywords
matches (no counting); fallback when empty; then `detected[:3]`. -/
def detect_emotions_from_keywords_heavy (text : String) (sentiment_label : String) : List String :=
  let tl := lowerChars text
  let detected :=
    (emotion_keywords_heavy.filter (fun p => p.2.any (fun k => containsSub k.data tl))).map
      Prod.fst
  (if detected.isEmpty then [fallbackEmotion sentiment_label] else detected).take 3

/-! ## Sentiment analysis -/

/-- The record returned by `analyze_sentiment`. -/
structure AnalysisResult where
  label : String
  score : Rat
  confidence : Rat
  emotions : List String
  keywords : List String
deriving DecidableEq

/-- `sentiment_analyzer_lite.analyze_sentiment`.  The external TextBlob
polarity scorer is modelled by the `polarity` argument: `some p` is a
successful call returning polarity `p`, `none` is "TextBlob unavailable or
threw" (the `except` branches, which both build the same fallback record). -/
def analyze_sentiment (text : String) (polarity : Option Rat) : AnalysisResult :=
  match polarity with
  | some p =>
    let label := if p > 1/10 then "POSITIVE" else if p < -(1/10) then "NEGATIVE" else "NEUTRAL"
    ⟨label, p, |p|, detect_emotions_from_keywords text label, extract_keywords text 5⟩
  | none => ⟨"NEUTRAL", 0, 0, ["neutral"], extract_keywords text 5⟩

/-- A label the data model allows. -/
def validLabel (l : String) : Prop := l = "POSITIVE" ∨ l = "NEGATIVE" ∨ l = "NEUTRAL"

/-- Output of the Hugging Face pipeline in the heavy analyzer: its own label
(`POSITIVE`/`NEGATIVE`) and score in `[0, 1]`. -/
structure HFResult where
  label : String
  score : Rat
deriving DecidableEq

/-- The transformer path of `sentiment_analyzer.analyze_sentiment` (lines
236-253): signed score from the pipeline label, then label thresholds at
`±0.3`, confidence = raw pipeline score.  Returns (label, score, confidence). -/
def hf_sentiment_data (r : HFResult) : String × Rat × Rat :=
  let score := if r.label = "POSITIVE" then r.score else -r.score
  let label :=
    if score > 3/10 then "POSITIVE" else if score < -(3/10) then "NEGATIVE" else "NEUTRAL"
  (label, score, r.score)

/-! ## Entry-submission validation (app.py `render_new_entry_page`) -/

/-- Python `str.strip()` / `str.split()` whitespace over ASCII. -/
def isPySpace (c : Char) : Bool :=
  c == ' ' || c == '\t' || c == '\n' || c == '\r' || c == '\x0b' || c == '\x0c'

/-- Python `entry_text.strip()`. -/
def pyStrip (s : String) : String :=
  String.mk (((s.data.dropWhile isPySpace).reverse.dropWhile isPySpace).reverse)

/-- Python `len(entry_text.split())`: number of maximal non-whitespace runs. -/
def wordCount (s : String) : Nat := (tokens (fun c => !(isPySpace c)) s.data).length

/-! ## Entry store (data_manager.py) -/

/-- A row of the `journal_entries` table.  `detected_emotions` / `keywords`
hold either NULL or a JSON-encoded list of strings; since `json.dumps` /
`json.loads` round-trip string lists losslessly, the JSON text is modelled by
the list itself. -/
structure Row where
  id : Nat
  entry_text : String
  user_selected_mood : Option String
  ai_sentiment_label : Option String
  ai_sentiment_score : Option Rat
  ai_confidence : Option Rat
  word_count : Nat
  detected_emotions : Option (List String)
  keywords : Option (List String)
deriving DecidableEq

/-- The SQLite table: rows plus the AUTOINCREMENT counter (every stored row
id is below `nextId`). -/
structure DB where
  rows : List Row
  nextId : Nat
deriving DecidableEq

/-- Python's `json.dumps(x) if x else None`: `None` and the empty list are
falsy and become NULL; a nonempty list is serialized (the JSON text is
modelled by the list itself, since `json.dumps`/`json.loads` round-trip
string lists losslessly). -/
def jsonOfList (o : Option (List String)) : Option (List String) :=
  match o with
  | none => none
  | some l => if l.isEmpty then none else some l

/-- `DataManager.save_entry`: Python's `json.dumps(x) if x else None` maps
both `None` and the empty list to NULL; the row gets the next id. -/
def save_entry (db : DB) (entry_text : String) (user_selected_mood : Option String)
    (ai_sentiment_label : Option String) (ai_sentiment_score : Option Rat)
    (ai_confidence : Option Rat) (detected_emotions : Option (List String))
    (keywords : Option (List String)) : DB × Nat :=
  let emotions_json : Option (List String) := jsonOfList detected_emotions
  let keywords_json : Option (List String) := jsonOfList keywords
  let row : Row :=
    ⟨db.nextId, entry_text, user_selected_mood, ai_sentiment_label, ai_sentiment_score,
     ai_confidence, wordCount entry_text, emotions_json, keywords_json⟩
  (⟨db.rows ++ [row], db.nextId + 1⟩, db.nextId)

/-- The dictionary built by `DataManager.get_entry_by_id`: JSON fields
decoded, NULL decoded to `[]` (`json.loads(x) if x else []`). -/
structure EntryView where
  id : Nat
  entry_text : String
  user_selected_mood : Option String
  ai_sentiment_label : Option String
  ai_sentiment_score : Option Rat
  ai_confidence : Option Rat
  word_count : Nat
  detected_emotions : List String
  keywords : List String
deriving DecidableEq

/-- `DataManager.get_entry_by_id`: `SELECT * WHERE id = ?`, `None` when no
row matches. -/
def get_entry_by_id (db : DB) (entry_id : Nat) : Option EntryView :=
  match db.rows.find? (fun r => r.id == entry_id) with
  | none => none
  | some r =>
    some ⟨r.id, r.entry_text, r.user_selected_mood, r.ai_sentiment_label,
          r.ai_sentiment_score, r.ai_confidence, r.word_count,
          r.detected_emotions.getD [], r.keywords.getD []⟩

/-- `DataManager.delete_entry`: `DELETE FROM journal_entries WHERE id = ?`
followed by `return True`.  SQLite's DELETE of zero rows raises nothing, so
the `except` branch (which would return `False`) is unreachable for a live
store and the function returns `True` whether or not the id existed. -/
def delete_entry (db : DB) (entry_id : Nat) : DB × Bool :=
  (⟨db.rows.filter (fun r => r.id != entry_id), db.nextId⟩, true)

/-- The submission workflow of `app.py render_new_entry_page` (lines
155-179): the validation chain (`not entry_text or len(strip) == 0`,
`len < 20`, `len > 5000`), then analyze and save.  Returns `none` when the
submission is rejected (nothing analyzed, nothing saved). -/
def submitEntry (db : DB) (entry_text : String) (mood : Option String)
    (polarity : Option Rat) : Option (DB × Nat × AnalysisResult) :=
  if entry_text.length = 0 then none
  else if (pyStrip entry_text).length = 0 then none
  else if entry_text.length < 20 then none
  else if 5000 < entry_text.length then none
  else
    let r := analyze_sentiment entry_text polarity
    let sv := save_entry db entry_text mood (some r.label) (some r.score)
      (some r.confidence) (some r.emotions) (some r.keywords)
    some (sv.1, sv.2, r)

/-! ## Helper lemmas -/

/-- A nonempty-or-fallback list is never empty. -/
lemma ite_isEmpty_ne_nil (l : List String) (fb : String) :
    (if l.isEmpty then [fb] else l) ≠ [] := by
  split
  · simp
  · next h => simpa [List.isEmpty_iff] using h

/-- The lite emotion detector never returns the empty list. -/
lemma detect_emotions_ne_nil (text label : String) :
    detect_emotions_from_keywords text label ≠ [] :=
  ite_isEmpty_ne_nil _ _

/-- The lite emotion detector returns at most 3 tags. -/
lemma detect_emotions_len_le3 (text label : String) :
    (detect_emotions_from_keywords text label).length ≤ 3 := by
  simp only [detect_emotions_from_keywords]
  split
  · simp
  · split
    · simp
    · exact List.length_take_le 3 _

/-- Every label produced by the lite analyzer is one of the three allowed
labels. -/
lemma analyze_label_valid (text : String) (pol : Option Rat) :
    validLabel (analyze_sentiment text pol).label := by
  cases pol with
  | none => exact Or.inr (Or.inr rfl)
  | some p =>
    show validLabel
      (if p > 1/10 then "POSITIVE" else if p < -(1/10) then "NEGATIVE" else "NEUTRAL")
    unfold validLabel
    split
    · exact Or.inl rfl
    · split
      · exact Or.inr (Or.inl rfl)
      · exact Or.inr (Or.inr rfl)

/-! ## C1 -/

/-- C1 counterexample: deleting id 5 from a store that holds only id 1
returns `true`, not the failure/false the claim asserts (SQLite's DELETE of
zero rows raises nothing and the function unconditionally returns `True`);
the store is nevertheless unchanged. -/
theorem delete_entry_missing_cex :
    (delete_entry ⟨[⟨1, "hello", none, none, none, none, 1, none, none⟩], 2⟩ 5).2 ≠ false ∧
    (delete_entry ⟨[⟨1, "hello", none, none, none, none, 1, none, none⟩], 2⟩ 5).1 =
      ⟨[⟨1, "hello", none, none, none, none, 1, none, none⟩], 2⟩ := by
  constructor
  · decide
  · decide

/-- C1 (amended): for every id that does not identify any stored entry,
`delete_entry` returns success/`True`, does not raise, and leaves the store
unchanged. -/
theorem delete_entry_nonexistent (db : DB) (entry_id : Nat)
    (h : ∀ r ∈ db.rows, r.id ≠ entry_id) :
    delete_entry db entry_id = (db, true) := by
  unfold delete_entry
  have : db.rows.filter (fun r => r.id != entry_id) = db.rows :=
    List.filter_eq_self.mpr (fun r hr => by simpa using h r hr)
  rw [this]

/-- C1 witness: deleting id 5 from a store holding only id 1. -/
theorem delete_entry_nonexistent_witness :
    delete_entry ⟨[⟨1, "hello", none, none, none, none, 1, none, none⟩], 2⟩ 5 =
      (⟨[⟨1, "hello", none, none, none, none, 1, none, none⟩], 2⟩, true) :=
  delete_entry_nonexistent _ 5 (by decide)

/-! ## C2 -/

/-- C2 counterexample: `"abcde"` followed by 15 spaces has trimmed length 5
(< 20) but raw length 20, and the submission workflow accepts it (it is
analyzed and saved), because the length check in `app.py` uses
`len(entry_text)`, not the trimmed length. -/
theorem submit_trimmed_short_accepted_cex :
    (pyStrip "abcde               ").length < 20 ∧
    (submitEntry ⟨[], 1⟩ "abcde               " none none).isSome = true := by
  constructor
  · decide
  · decide

/-- C2 (amended): the submission workflow rejects every text whose RAW
(untrimmed) length is below 20 characters, and every text that trims to the
empty string; nothing is analyzed or saved for such texts.  (A text whose
trimmed length is below 20 but whose raw length is at least 20 is accepted.) -/
theorem submit_short_rejected (db : DB) (text : String) (mood : Option String)
    (pol : Option Rat) (h : text.length < 20 ∨ (pyStrip text).length = 0) :
    submitEntry db text mood pol = none := by
  rcases h with h | h <;>
    · unfold submitEntry
      split_ifs <;> first | rfl | omega

/-- C2 witness: a 5-character text is rejected. -/
theorem submit_short_rejected_witness :
    submitEntry ⟨[], 1⟩ "short" none none = none :=
  submit_short_rejected _ _ _ _ (Or.inl (by decide))

/-! ## C3 -/

/-- C3: when the external scorer is unavailable or throws (`polarity =
none`), the lite analyzer returns the complete fallback record with
label `NEUTRAL`, score 0, confidence 0; and for every text (including the
empty and whitespace-only ones) and every scorer outcome, the analyzer
totally returns a well-typed result: a valid label and a nonempty emotion
list.  In the embedding `analyze_sentiment` is a total function, which is
the shallow form of "never propagates a failure / never throws". -/
theorem analyze_fallback_spec (text : String) :
    ((analyze_sentiment text none).label = "NEUTRAL" ∧
     (analyze_sentiment text none).score = 0 ∧
     (analyze_sentiment text none).confidence = 0) ∧
    (∀ pol : Option Rat,
      validLabel (analyze_sentiment text pol).label ∧
      (analyze_sentiment text pol).emotions ≠ []) := by
  refine ⟨⟨rfl, rfl, rfl⟩, fun pol => ⟨analyze_label_valid text pol, ?_⟩⟩
  cases pol with
  | none => simp [analyze_sentiment]
  | some p => exact detect_emotions_ne_nil text _

/-! ## C6 -/

/-- C6 counterexample: the transformer path of the heavy analyzer
(`sentiment_analyzer.py` lines 241-253) maps a signed score of 0.2 to
`NEUTRAL`, although 0.2 > 0.1, because that path uses ±0.3 thresholds. -/
theorem hf_threshold_cex :
    (hf_sentiment_data ⟨"POSITIVE", 1/5⟩).2.1 > 1/10 ∧
    (hf_sentiment_data ⟨"POSITIVE", 1/5⟩).1 = "NEUTRAL" := by
  constructor
  · show (1/5 : Rat) > 1/10
    norm_num
  · show (if (1/5 : Rat) > 3/10 then "POSITIVE"
          else if (1/5 : Rat) < -(3/10) then "NEGATIVE" else "NEUTRAL") = "NEUTRAL"
    norm_num

/-- C6 (amended): the lite analyzer — the one `app.py` imports — derives the
label from the returned score with the ±0.1 thresholds the claim states (for
every text and every scorer outcome, including the fallback); the heavy
analyzer's transformer path instead uses ±0.3 thresholds on its signed
score. -/
theorem analyze_label_thresholds (text : String) :
    (∀ pol : Option Rat,
      (analyze_sentiment text pol).label =
        (if (analyze_sentiment text pol).score > 1/10 then "POSITIVE"
         else if (analyze_sentiment text pol).score < -(1/10) then "NEGATIVE"
         else "NEUTRAL")) ∧
    (∀ r : HFResult,
      (hf_sentiment_data r).1 =
        (if (hf_sentiment_data r).2.1 > 3/10 then "POSITIVE"
         else if (hf_sentiment_data r).2.1 < -(3/10) then "NEGATIVE"
         else "NEUTRAL")) := by
  constructor
  · intro pol
    cases pol with
    | none =>
      show "NEUTRAL" =
        (if (0 : Rat) > 1/10 then "POSITIVE"
         else if (0 : Rat) < -(1/10) then "NEGATIVE" else "NEUTRAL")
      rw [if_neg (by norm_num), if_neg (by norm_num)]
    | some p => rfl
  · intro r
    rfl

/-! ## C9 -/

/-- NULL-collapsing of falsy lists followed by the reader's NULL-to-`[]`
decoding is the identity on the decoded value. -/
lemma jsonOfList_getD (o : Option (List String)) : (jsonOfList o).getD [] = o.getD [] := by
  cases o with
  | none => rfl
  | some l =>
    cases l with
    | nil => rfl
    | cons a t => rfl

/-- Looking up a freshly appended row's id finds exactly that row. -/
lemma find?_append_fresh (rows : List Row) (row : Row) (i : Nat) (hrow : row.id = i)
    (h : ∀ r ∈ rows, r.id ≠ i) :
    (rows ++ [row]).find? (fun r => r.id == i) = some row := by
  rw [List.find?_append, List.find?_eq_none.mpr (fun r hr => by simpa using h r hr)]
  simp [List.find?, hrow]

/-- C9: saving an entry and reading it back with `get_entry_by_id` at the
returned id yields the identical text, sentiment label, sentiment score,
emotions list and keywords list; emotion/keyword lists that were absent or
empty (stored as NULL by the Python falsiness check) are read back as empty
lists.  The hypothesis is the AUTOINCREMENT invariant of the store: every
existing row id is below the next id. -/
theorem save_entry_roundtrip (db : DB) (text : String) (mood label : Option String)
    (score conf : Option Rat) (emotions keywords : Option (List String))
    (h : ∀ r ∈ db.rows, r.id < db.nextId) :
    get_entry_by_id (save_entry db text mood label score conf emotions keywords).1
        (save_entry db text mood label score conf emotions keywords).2 =
      some ⟨db.nextId, text, mood, label, score, conf, wordCount text,
            emotions.getD [], keywords.getD []⟩ := by
  simp only [save_entry, get_entry_by_id]
  rw [find?_append_fresh db.rows _ db.nextId rfl (fun r hr => Nat.ne_of_lt (h r hr))]
  simp [jsonOfList_getD]

/-- C9 witness: round trip of a concrete entry through an empty store, with
an empty emotions list read back as the empty list. -/
theorem save_entry_roundtrip_witness :
    get_entry_by_id (save_entry ⟨[], 1⟩ "went for a walk today" none (some "NEUTRAL")
        (some 0) (some 0) (some []) (some ["walk"])).1
      (save_entry ⟨[], 1⟩ "went for a walk today" none (some "NEUTRAL")
        (some 0) (some 0) (some []) (some ["walk"])).2 =
      some ⟨1, "went for a walk today", none, some "NEUTRAL", some 0, some 0, 5,
            [], ["walk"]⟩ :=
  save_entry_roundtrip ⟨[], 1⟩ _ _ _ _ _ _ _ (by simp)

/-! ## Stable descending sort: permutation, sortedness, stability -/

/-- Insertion produces a permutation of consing. -/
lemma insertDescBy_perm {α : Type} (key : α → Nat) (x : α) (l : List α) :
    (insertDescBy key x l).Perm (x :: l) := by
  induction l with
  | nil => exact List.Perm.refl _
  | cons y ys ih =>
    unfold insertDescBy
    split
    · exact List.Perm.refl _
    · exact (ih.cons y).trans (List.Perm.swap x y ys)

/-- The stable sort permutes its input. -/
lemma sortDescBy_perm {α : Type} (key : α → Nat) (l : List α) :
    (sortDescBy key l).Perm l := by
  induction l with
  | nil => exact List.Perm.refl _
  | cons x xs ih => exact (insertDescBy_perm key x (sortDescBy key xs)).trans (ih.cons x)

/-- The head of an insertion is the new element or the old head. -/
lemma insertDescBy_head? {α : Type} (key : α → Nat) (x : α) (l : List α) :
    (insertDescBy key x l).head? = some x ∨ (insertDescBy key x l).head? = l.head? := by
  cases l with
  | nil => exact Or.inl rfl
  | cons y ys =>
    unfold insertDescBy
    split
    · exact Or.inl rfl
    · exact Or.inr rfl

/-- Insertion preserves the descending-key chain. -/
lemma chain_insertDescBy {α : Type} (key : α → Nat) (x : α) (l : List α)
    (h : List.Chain' (fun a b => key b ≤ key a) l) :
    List.Chain' (fun a b => key b ≤ key a) (insertDescBy key x l) := by
  induction l with
  | nil => simp [insertDescBy]
  | cons y ys ih =>
    have h' := List.chain'_cons'.mp h
    unfold insertDescBy
    split
    · next hyx =>
      refine List.chain'_cons'.mpr ⟨?_, h⟩
      intro b hb
      simp only [List.head?_cons, Option.mem_def, Option.some.injEq] at hb
      subst hb
      exact hyx
    · next hyx =>
      refine List.chain'_cons'.mpr ⟨?_, ih h'.2⟩
      intro b hb
      rcases insertDescBy_head? key x ys with he | he
      · rw [he] at hb
        simp only [Option.mem_def, Option.some.injEq] at hb
        subst hb
        omega
      · rw [he] at hb
        exact h'.1 b hb

/-- The stable sort is sorted by descending key. -/
lemma chain_sortDescBy {α : Type} (key : α → Nat) (l : List α) :
    List.Chain' (fun a b => key b ≤ key a) (sortDescBy key l) := by
  induction l with
  | nil => simp [sortDescBy]
  | cons x xs ih => exact chain_insertDescBy key x _ ih

/-- Stability of insertion, characterized the classic way: insertion does not
reorder the elements of any fixed key class (the new element lands in front
of its class). -/
lemma filter_insertDescBy {α : Type} (key : α → Nat) (c : Nat) (x : α) (l : List α) :
    (insertDescBy key x l).filter (fun w => key w == c) =
      if key x == c then x :: l.filter (fun w => key w == c)
      else l.filter (fun w => key w == c) := by
  induction l with
  | nil => simp [insertDescBy, List.filter_cons]
  | cons y ys ih =>
    unfold insertDescBy
    by_cases hyx : key y ≤ key x
    · simp [if_pos hyx, List.filter_cons]
    · simp only [if_neg hyx, List.filter_cons, ih]
      by_cases hx : key x = c <;> by_cases hy : key y = c
      · exact absurd (by omega : key y ≤ key x) hyx
      · simp [beq_iff_eq, hx, hy]
      · simp [beq_iff_eq, hx, hy]
      · simp [beq_iff_eq, hx, hy]

/-- Stability of the sort: each fixed key class keeps its original order. -/
lemma filter_sortDescBy {α : Type} (key : α → Nat) (c : Nat) (l : List α) :
    (sortDescBy key l).filter (fun w => key w == c) = l.filter (fun w => key w == c) := by
  induction l with
  | nil => rfl
  | cons x xs ih =>
    show (insertDescBy key x (sortDescBy key xs)).filter _ = _
    rw [filter_insertDescBy, ih, List.filter_cons]

/-! ## First-occurrence deduplication -/

/-- Membership in the first-occurrence deduplication with a seen set. -/
lemma mem_firstOccsAux (a : String) (l : List String) (seen : List String) :
    a ∈ firstOccsAux l seen ↔ a ∈ l ∧ a ∉ seen := by
  induction l generalizing seen with
  | nil => simp [firstOccsAux]
  | cons x xs ih =>
    unfold firstOccsAux
    split
    · next hx =>
      rw [ih seen]
      constructor
      · exact fun h => ⟨List.mem_cons_of_mem x h.1, h.2⟩
      · intro h
        rcases List.mem_cons.mp h.1 with rfl | h1
        · exact absurd hx h.2
        · exact ⟨h1, h.2⟩
    · next hx =>
      simp only [List.mem_cons, ih (x :: seen), List.mem_cons]
      constructor
      · rintro (rfl | ⟨h1, h2⟩)
        · exact ⟨Or.inl rfl, hx⟩
        · exact ⟨Or.inr h1, fun hs => h2 (Or.inr hs)⟩
      · rintro ⟨rfl | h1, h2⟩
        · exact Or.inl rfl
        · by_cases hax : a = x
          · exact Or.inl hax
          · exact Or.inr ⟨h1, fun hs => hs.elim hax h2⟩

/-- Membership in the first-occurrence deduplication. -/
lemma mem_firstOccs (a : String) (l : List String) : a ∈ firstOccs l ↔ a ∈ l := by
  rw [firstOccs, mem_firstOccsAux]
  simp

/-- The first-occurrence deduplication has no duplicates. -/
lemma nodup_firstOccsAux (l : List String) : ∀ seen : List String, (firstOccsAux l seen).Nodup := by
  induction l with
  | nil => intro seen; simp [firstOccsAux]
  | cons x xs ih =>
    intro seen
    unfold firstOccsAux
    split
    · exact ih seen
    · refine List.nodup_cons.mpr ⟨?_, ih (x :: seen)⟩
      rw [mem_firstOccsAux]
      rintro ⟨-, h2⟩
      exact h2 (List.mem_cons_self x seen)

/-- The first-occurrence deduplication of any list has no duplicates. -/
lemma nodup_firstOccs (l : List String) : (firstOccs l).Nodup := nodup_firstOccsAux l []

/-! ## C7 -/

/-- C7: keyword extraction lower-cases the text, keeps alphabetic tokens of
length at least 3 that are not stop words (`filtered_words`), counts
frequencies, and returns the top 5 distinct tokens by descending count with
ties in first-encountered order.  Formally: the result has as many elements
as there are qualifying distinct tokens, capped at 5 (so it is empty exactly
when no token qualifies); its elements are qualifying tokens; it has no
duplicates; counts are non-increasing along it; and the sorted key list it
is truncated from is a stable reordering of the distinct tokens in
first-occurrence order (each count class keeps that order). -/
theorem extract_keywords_spec (text : String) :
    (extract_keywords text 5).length = min 5 (firstOccs (filtered_words text)).length ∧
    (∀ k ∈ extract_keywords text 5, k ∈ filtered_words text) ∧
    (extract_keywords text 5).Nodup ∧
    List.Chain' (fun a b => (filtered_words text).count b ≤ (filtered_words text).count a)
      (extract_keywords text 5) ∧
    (∀ c : Nat,
      (sortDescBy (fun w => (filtered_words text).count w)
            (firstOccs (filtered_words text))).filter
          (fun w => (filtered_words text).count w == c) =
        (firstOccs (filtered_words text)).filter
          (fun w => (filtered_words text).count w == c)) := by
  have hperm := sortDescBy_perm (fun w => (filtered_words text).count w)
    (firstOccs (filtered_words text))
  simp only [extract_keywords, most_common]
  refine ⟨?_, ?_, ?_, ?_, ?_⟩
  · rw [List.length_take, hperm.length_eq]
  · intro k hk
    exact (mem_firstOccs k _).mp (hperm.mem_iff.mp (List.mem_of_mem_take hk))
  · exact (hperm.nodup_iff.mpr (nodup_firstOccs _)).sublist (List.take_sublist 5 _)
  · exact (chain_sortDescBy _ _).take 5
  · intro c
    exact filter_sortDescBy _ c _

/-! ## C8 -/

/-- C8 counterexample: on "happy but sad and crying" the heavy variant
(`sentiment_analyzer.py`, also cited by the claim) returns ["joy", "sadness"]
although sadness has 2 keyword matches and joy only 1 — the heavy variant
appends matching emotions in declaration order and never counts, so the
result is NOT ranked by descending match count as the claim states. -/
theorem detect_emotions_heavy_cex :
    detect_emotions_from_keywords_heavy "happy but sad and crying" "NEUTRAL" =
      ["joy", "sadness"] ∧
    matchCount (lowerChars "happy but sad and crying")
      ["sad", "depressed", "unhappy", "down", "crying", "tears", "lonely", "miss"] = 2 ∧
    matchCount (lowerChars "happy but sad and crying")
      ["happy", "joy", "excited", "wonderful", "amazing", "great", "love", "fantastic"] = 1 := by
  decide

/-- C8 (amended): the claim's description is exact for the lite detector,
the variant `app.py` imports: each of the 8 emotions is scored by how many
of its keyword phrases occur as substrings of the lower-cased text
(`emotionScores`, declaration order, positive counts only); the result is
the top 3 of the stable descending-count sort of those scores (so ties keep
declaration order), every returned tag has a positive match count, and when
nothing matches the result is exactly the one fallback tag; the length is
always between 1 and 3.  The unused heavy variant instead returns up to the
first 3 matching emotions in declaration order without counting. -/
theorem detect_emotions_lite_spec (text label : String) :
    (1 ≤ (detect_emotions_from_keywords text label).length ∧
     (detect_emotions_from_keywords text label).length ≤ 3) ∧
    (emotionScores text = [] →
      detect_emotions_from_keywords text label = [fallbackEmotion label]) ∧
    (emotionScores text ≠ [] →
      detect_emotions_from_keywords text label =
        ((sortDescBy Prod.snd (emotionScores text)).map Prod.fst).take 3 ∧
      (sortDescBy Prod.snd (emotionScores text)).Perm (emotionScores text) ∧
      List.Chain' (fun a b => b.2 ≤ a.2) (sortDescBy Prod.snd (emotionScores text)) ∧
      (∀ c : Nat,
        (sortDescBy Prod.snd (emotionScores text)).filter (fun q => q.2 == c) =
          (emotionScores text).filter (fun q => q.2 == c)) ∧
      (∀ e ∈ detect_emotions_from_keywords text label,
        ∃ n, 0 < n ∧ (e, n) ∈ emotionScores text)) := by
  have hperm := sortDescBy_perm (Prod.snd : String × Nat → Nat) (emotionScores text)
  refine ⟨⟨List.length_pos.mpr (detect_emotions_ne_nil text label),
           detect_emotions_len_le3 text label⟩, ?_, ?_⟩
  · intro h
    simp [detect_emotions_from_keywords, h]
  · intro h
    have hne : (emotionScores text).isEmpty = false := by simp [List.isEmpty_iff, h]
    have heq : detect_emotions_from_keywords text label =
        ((sortDescBy Prod.snd (emotionScores text)).map Prod.fst).take 3 := by
      have htk : ((sortDescBy Prod.snd (emotionScores text)).map Prod.fst).take 3 ≠ [] := by
        rw [Ne, List.take_eq_nil_iff, List.map_eq_nil_iff]
        rintro (h3 | hsort)
        · exact absurd h3 (by decide)
        · have hnil : ([] : List (String × Nat)).Perm (emotionScores text) := hsort ▸ hperm
          exact h hnil.symm.eq_nil
      simp [detect_emotions_from_keywords, hne, List.isEmpty_iff, htk]
    refine ⟨heq, hperm, chain_sortDescBy _ _, fun c => filter_sortDescBy _ c _, ?_⟩
    intro e he
    rw [heq] at he
    obtain ⟨q, hq, hq1⟩ := List.mem_map.mp (List.mem_of_mem_take he)
    have hqs : q ∈ emotionScores text := hperm.mem_iff.mp hq
    have hpos : 0 < q.2 := by
      have hqs' : q ∈ (emotion_keywords.map
          (fun p => (p.1, matchCount (lowerChars text) p.2))).filter
            (fun r => decide (0 < r.2)) := hqs
      exact of_decide_eq_true (List.mem_filter.mp hqs').2
    subst hq1
    exact ⟨q.2, hpos, Prod.mk.eta ▸ hqs⟩

/-- C8 witness: on a text with keyword matches the lite detector's scores
are nonempty and the output is the count-ranked top-3 list. -/
theorem detect_emotions_lite_spec_witness :
    emotionScores "happy but sad and crying" ≠ [] ∧
    detect_emotions_from_keywords "happy but sad and crying" "NEUTRAL" =
      ((sortDescBy Prod.snd (emotionScores "happy but sad and crying")).map Prod.fst).take 3 :=
  ⟨by decide,
   ((detect_emotions_lite_spec "happy but sad and crying" "NEUTRAL").2.2 (by decide)).1⟩

/-! ## Streak lemmas: the sorted-dedup date list -/

/-- Membership after duplicate-skipping insertion. -/
lemma mem_insertDD (a x : Int) (l : List Int) : a ∈ insertDD x l ↔ a = x ∨ a ∈ l := by
  induction l with
  | nil => simp [insertDD]
  | cons y ys ih =>
    unfold insertDD
    split
    · simp [List.mem_cons]
    · split
      · next hxy =>
        subst hxy
        simp only [List.mem_cons]
        tauto
      · simp only [List.mem_cons, ih]
        tauto

/-- Insertion never yields the empty list. -/
lemma insertDD_ne_nil (x : Int) (l : List Int) : insertDD x l ≠ [] := by
  cases l with
  | nil => simp [insertDD]
  | cons y ys =>
    unfold insertDD
    split
    · simp
    · split <;> simp

/-- Insertion adds at most one element. -/
lemma length_insertDD_le (x : Int) (l : List Int) : (insertDD x l).length ≤ l.length + 1 := by
  induction l with
  | nil => simp [insertDD]
  | cons y ys ih =>
    unfold insertDD
    split
    · simp
    · split
      · simp
      · simp only [List.length_cons]
        omega

/-- The head of an insertion is the new element or the old head. -/
lemma insertDD_head? (x : Int) (l : List Int) :
    (insertDD x l).head? = some x ∨ (insertDD x l).head? = l.head? := by
  cases l with
  | nil => exact Or.inl rfl
  | cons y ys =>
    unfold insertDD
    split
    · exact Or.inl rfl
    · split
      · exact Or.inr rfl
      · exact Or.inr rfl

/-- Duplicate-skipping insertion preserves strict descent. -/
lemma chain_gt_insertDD (x : Int) (l : List Int)
    (h : List.Chain' (fun a b => b < a) l) :
    List.Chain' (fun a b => b < a) (insertDD x l) := by
  induction l with
  | nil => simp [insertDD]
  | cons y ys ih =>
    have h' := List.chain'_cons'.mp h
    unfold insertDD
    split
    · next hyx =>
      refine List.chain'_cons'.mpr ⟨?_, h⟩
      intro b hb
      simp only [List.head?_cons, Option.mem_def, Option.some.injEq] at hb
      omega
    · next hyx =>
      split
      · exact h
      · next hxy =>
        refine List.chain'_cons'.mpr ⟨?_, ih h'.2⟩
        intro b hb
        rcases insertDD_head? x ys with he | he
        · rw [he] at hb
          simp only [Option.mem_def, Option.some.injEq] at hb
          omega
        · rw [he] at hb
          exact h'.1 b hb

/-- The sorted-dedup list has the same members as the input. -/
lemma mem_sortDescDedup (a : Int) (l : List Int) : a ∈ sortDescDedup l ↔ a ∈ l := by
  induction l with
  | nil => simp [sortDescDedup]
  | cons x xs ih =>
    show a ∈ insertDD x (sortDescDedup xs) ↔ _
    rw [mem_insertDD, ih]
    simp [List.mem_cons]

/-- A nonempty history yields a nonempty sorted-dedup list. -/
lemma sortDescDedup_ne_nil (l : List Int) (h : l ≠ []) : sortDescDedup l ≠ [] := by
  cases l with
  | nil => exact absurd rfl h
  | cons x xs => exact insertDD_ne_nil x (sortDescDedup xs)

/-- Deduplication does not lengthen the list. -/
lemma length_sortDescDedup_le (l : List Int) : (sortDescDedup l).length ≤ l.length := by
  induction l with
  | nil => simp [sortDescDedup]
  | cons x xs ih =>
    have h1 := length_insertDD_le x (sortDescDedup xs)
    show (insertDD x (sortDescDedup xs)).length ≤ (x :: xs).length
    simp only [List.length_cons]
    omega

/-- The sorted-dedup list is strictly descending. -/
lemma chain_sortDescDedup (l : List Int) :
    List.Chain' (fun a b => b < a) (sortDescDedup l) := by
  induction l with
  | nil => simp [sortDescDedup]
  | cons x xs ih => exact chain_gt_insertDD x _ ih

/-- In a strictly descending list every member is at most the head. -/
lemma le_head_of_chain (a : Int) (rest : List Int) (x : Int)
    (h : List.Chain' (fun p q => q < p) (a :: rest)) (hx : x ∈ a :: rest) : x ≤ a := by
  induction rest generalizing a with
  | nil =>
    simp only [List.mem_cons, List.not_mem_nil, or_false] at hx
    omega
  | cons b bs ih =>
    rcases List.mem_cons.mp hx with rfl | hx'
    · exact le_refl x
    · have hba : b < a := (List.chain'_cons.mp h).1
      have := ih b (List.chain'_cons.mp h).2 hx'
      omega

/-- In a strictly descending list every tail member is below the head. -/
lemma lt_head_of_chain (a : Int) (rest : List Int) (d : Int)
    (h : List.Chain' (fun p q => q < p) (a :: rest)) (hd : d ∈ rest) : d < a := by
  cases rest with
  | nil => simp at hd
  | cons b bs =>
    have hba : b < a := (List.chain'_cons.mp h).1
    have := le_head_of_chain b bs d (List.chain'_cons.mp h).2 hd
    omega

/-- The maximum of a nonempty list is a member. -/
lemma listMaxI_mem (l : List Int) (h : l ≠ []) : listMaxI l ∈ l := by
  induction l with
  | nil => exact absurd rfl h
  | cons x xs ih =>
    cases xs with
    | nil => simp [listMaxI]
    | cons y ys =>
      show max x (listMaxI (y :: ys)) ∈ x :: y :: ys
      rcases le_total x (listMaxI (y :: ys)) with hle | hle
      · rw [max_eq_right hle]
        exact List.mem_cons_of_mem x (ih (by simp))
      · rw [max_eq_left hle]
        exact List.mem_cons_self x (y :: ys)

/-- Every member is at most the maximum. -/
lemma le_listMaxI (x : Int) (l : List Int) (h : x ∈ l) : x ≤ listMaxI l := by
  induction l with
  | nil => simp at h
  | cons a as ih =>
    cases as with
    | nil =>
      simp only [List.mem_cons, List.not_mem_nil, or_false] at h
      simp [listMaxI, h]
    | cons b bs =>
      show x ≤ max a (listMaxI (b :: bs))
      rcases List.mem_cons.mp h with rfl | h'
      · exact le_max_left _ _
      · exact le_trans (ih h') (le_max_right _ _)

/-- The head of the sorted-dedup list is the most recent (maximum) date. -/
lemma head_sortDescDedup_eq_max (l : List Int) (a : Int) (rest : List Int)
    (h : sortDescDedup l = a :: rest) : listMaxI l = a := by
  have hne : l ≠ [] := by
    intro hl
    rw [hl] at h
    exact List.noConfusion h
  have hmem_a : a ∈ l := (mem_sortDescDedup a l).mp (h ▸ List.mem_cons_self a rest)
  have hchain := chain_sortDescDedup l
  rw [h] at hchain
  have hm : listMaxI l ∈ a :: rest := h ▸ (mem_sortDescDedup _ l).mpr (listMaxI_mem l hne)
  have hle : listMaxI l ≤ a := le_head_of_chain a rest _ hchain hm
  have hge : a ≤ listMaxI l := le_listMaxI a l hmem_a
  omega

/-! ## Streak lemmas: walking backward vs scanning -/

/-- A walk from a day with no entry counts nothing. -/
lemma walkBack_eq_zero (S : List Int) (f : Nat) (d : Int) (h : d ∉ S) :
    walkBack S f d = 0 := by
  cases f with
  | zero => rfl
  | succ f => simp [walkBack, h]

/-- Days above the start of the walk are irrelevant: the walk only ever
queries `d, d-1, ...`. -/
lemma walkBack_cons_gt (m : Int) (rest : List Int) (f : Nat) (d : Int) (h : d < m) :
    walkBack (m :: rest) f d = walkBack rest f d := by
  induction f generalizing d with
  | zero => rfl
  | succ f ih =>
    simp only [walkBack]
    by_cases hdr : d ∈ rest
    · rw [if_pos (List.mem_cons_of_mem m hdr), if_pos hdr, ih (d - 1) (by omega)]
    · have hdm : d ∉ m :: rest := by
        rw [List.mem_cons]
        rintro (rfl | hc)
        · omega
        · exact hdr hc
      rw [if_neg hdm, if_neg hdr]

/-- The walk depends only on the set of entry dates. -/
lemma walkBack_congr (S T : List Int) (h : ∀ x : Int, x ∈ S ↔ x ∈ T) (f : Nat) (d : Int) :
    walkBack S f d = walkBack T f d := by
  induction f generalizing d with
  | zero => rfl
  | succ f ih =>
    simp only [walkBack]
    by_cases hd : d ∈ S
    · rw [if_pos hd, if_pos ((h d).mp hd), ih]
    · rw [if_neg hd, if_neg (fun hc => hd ((h d).mpr hc))]

/-- On a strictly descending date list with enough fuel, the backward walk
from the head equals the prefix-run scan of the code. -/
lemma runLen_eq_walkBack (a : Int) (rest : List Int) (f : Nat)
    (hch : List.Chain' (fun p q => q < p) (a :: rest)) (hf : (a :: rest).length ≤ f) :
    walkBack (a :: rest) f a = runLen (a :: rest) := by
  induction rest generalizing a f with
  | nil =>
    obtain ⟨f, rfl⟩ : ∃ g, f = g + 1 := ⟨f - 1, by simp at hf; omega⟩
    simp only [walkBack]
    rw [if_pos (List.mem_cons_self a [])]
    have hz : walkBack [a] f (a - 1) = 0 := by
      apply walkBack_eq_zero
      simp only [List.mem_cons, List.not_mem_nil, or_false]
      omega
    rw [hz]
    rfl
  | cons b rest' ih =>
    obtain ⟨f', rfl⟩ : ∃ g, f = g + 1 := ⟨f - 1, by simp at hf; omega⟩
    have hba : b < a := (List.chain'_cons.mp hch).1
    have hchb := (List.chain'_cons.mp hch).2
    simp only [walkBack]
    rw [if_pos (List.mem_cons_self a _)]
    by_cases hgap : a - b = 1
    · have hb' : b = a - 1 := by omega
      rw [walkBack_cons_gt a (b :: rest') f' (a - 1) (by omega), ← hb',
          ih b f' hchb (by simp at hf ⊢; omega)]
      show _ = (if a - b = 1 then 1 + runLen (b :: rest') else 1)
      rw [if_pos hgap]
    · have hnot : (a - 1) ∉ a :: b :: rest' := by
        rw [List.mem_cons, List.mem_cons]
        rintro (h1 | h1 | h1)
        · omega
        · omega
        · have := le_head_of_chain b rest' _ hchb (List.mem_cons_of_mem b h1)
          omega
      rw [walkBack_eq_zero _ _ _ hnot]
      show _ = (if a - b = 1 then 1 + runLen (b :: rest') else 1)
      rw [if_neg hgap]

/-- The prefix-run length splits off the head. -/
lemma runLen_cons (a : Int) (rest : List Int) :
    runLen (a :: rest) = 1 + runLenFrom a rest := by
  induction rest generalizing a with
  | nil => rfl
  | cons b rest' ih =>
    show (if a - b = 1 then 1 + runLen (b :: rest') else 1) =
      1 + (if a - b = 1 then 1 + runLenFrom b rest' else 0)
    by_cases h : a - b = 1
    · rw [if_pos h, if_pos h, ih b]
    · rw [if_neg h, if_neg h]

/-- Invariant of the longest-streak scan: the result is the maximum of the
running maximum, the current run extended as far as it goes, and the best
run that starts later. -/
lemma longestAux_eq (rest : List Int) : ∀ (prev : Int) (longest temp : Nat),
    1 ≤ longest → temp ≤ longest →
    longestAux prev longest temp rest =
      max (max longest (temp + runLenFrom prev rest)) (maxRunLen rest) := by
  induction rest with
  | nil =>
    intro prev longest temp h1 h2
    show longest = max (max longest (temp + 0)) (maxRunLen [])
    show longest = max (max longest (temp + 0)) 0
    omega
  | cons b rest' ih =>
    intro prev longest temp h1 h2
    show (if prev - b = 1 then longestAux b (max longest (temp + 1)) (temp + 1) rest'
          else longestAux b longest 1 rest') = _
    by_cases hg : prev - b = 1
    · rw [if_pos hg, ih b (max longest (temp + 1)) (temp + 1) (by omega) (by omega)]
      show _ = max (max longest (temp + (if prev - b = 1 then 1 + runLenFrom b rest' else 0)))
        (max (runLen (b :: rest')) (maxRunLen rest'))
      rw [if_pos hg, runLen_cons]
      omega
    · rw [if_neg hg, ih b longest 1 h1 h1]
      show _ = max (max longest (temp + (if prev - b = 1 then 1 + runLenFrom b rest' else 0)))
        (max (runLen (b :: rest')) (maxRunLen rest'))
      rw [if_neg hg, runLen_cons]
      omega

/-- The code's longest-streak scan computes the maximum run length over all
suffixes. -/
lemma longestScan_eq_maxRunLen (l : List Int) : longestScan l = maxRunLen l := by
  cases l with
  | nil => rfl
  | cons a rest =>
    show longestAux a 1 1 rest = _
    rw [longestAux_eq rest a 1 1 (le_refl 1) (le_refl 1)]
    show max (max 1 (1 + runLenFrom a rest)) (maxRunLen rest) =
      max (runLen (a :: rest)) (maxRunLen rest)
    rw [runLen_cons]
    omega

/-- On a strictly descending list, the maximum over suffixes of the prefix
run equals the maximum over all dates of the backward walk. -/
lemma maxRunLen_eq_listMax (L : List Int) (f : Nat)
    (hch : List.Chain' (fun p q => q < p) L) (hf : L.length ≤ f) :
    maxRunLen L = listMaxNat (L.map (fun d => walkBack L f d)) := by
  induction L with
  | nil => rfl
  | cons a rest ih =>
    show max (runLen (a :: rest)) (maxRunLen rest) = _
    have h1 : walkBack (a :: rest) f a = runLen (a :: rest) :=
      runLen_eq_walkBack a rest f hch hf
    have h2 : rest.map (fun d => walkBack (a :: rest) f d) =
        rest.map (fun d => walkBack rest f d) :=
      List.map_congr_left (fun d hd => walkBack_cons_gt a rest f d (lt_head_of_chain a rest d hch hd))
    show _ = max (walkBack (a :: rest) f a)
      (listMaxNat (rest.map (fun d => walkBack (a :: rest) f d)))
    rw [h1, h2, ← ih hch.tail (by simp at hf ⊢; omega)]

/-- Every member is at most the running maximum. -/
lemma le_listMaxNat (x : Nat) (l : List Nat) (h : x ∈ l) : x ≤ listMaxNat l := by
  induction l with
  | nil => simp at h
  | cons a as ih =>
    show x ≤ max a (listMaxNat as)
    rcases List.mem_cons.mp h with rfl | h'
    · exact Nat.le_max_left _ _
    · exact Nat.le_trans (ih h') (Nat.le_max_right _ _)

/-- The maximum of a nonempty list of naturals is attained. -/
lemma listMaxNat_mem (l : List Nat) (h : l ≠ []) : listMaxNat l ∈ l := by
  induction l with
  | nil => exact absurd rfl h
  | cons a as ih =>
    cases as with
    | nil => simp [listMaxNat]
    | cons b bs =>
      show max a (listMaxNat (b :: bs)) ∈ a :: b :: bs
      rcases Nat.le_total a (listMaxNat (b :: bs)) with hle | hle
      · rw [Nat.max_eq_right hle]
        exact List.mem_cons_of_mem a (ih (by simp))
      · rw [Nat.max_eq_left hle]
        exact List.mem_cons_self _ _

/-- The maximum of the image depends only on the set of arguments. -/
lemma listMaxNat_map_eq (l1 l2 : List Int) (f : Int → Nat)
    (hmem : ∀ x : Int, x ∈ l1 ↔ x ∈ l2) (h1 : l1 ≠ []) :
    listMaxNat (l1.map f) = listMaxNat (l2.map f) := by
  have h2 : l2 ≠ [] := by
    intro hl
    cases l1 with
    | nil => exact h1 rfl
    | cons a as =>
      have := (hmem a).mp (List.mem_cons_self a as)
      rw [hl] at this
      simp at this
  have key : ∀ (la lb : List Int), (∀ x, x ∈ la → x ∈ lb) → la ≠ [] →
      listMaxNat (la.map f) ≤ listMaxNat (lb.map f) := by
    intro la lb hsub hne
    have hmm : listMaxNat (la.map f) ∈ la.map f := by
      apply listMaxNat_mem
      rw [Ne, List.map_eq_nil_iff]
      exact hne
    obtain ⟨x, hx, hfx⟩ := List.mem_map.mp hmm
    rw [← hfx]
    exact le_listMaxNat _ _ (List.mem_map_of_mem f (hsub x hx))
  exact Nat.le_antisymm (key l1 l2 (fun x => (hmem x).mp) h1)
    (key l2 l1 (fun x => (hmem x).mpr) h2)

/-! ## C4 -/

/-- C4: for every non-empty entry history, the code's current streak equals
the spec's: the count of consecutive calendar days with at least one entry,
walking backward from the most recent entry date, provided that date is
today or yesterday, and 0 otherwise.  (The witness instantiates the claim's
example: dates today, today-1, today-2, today-5 give streak 3.) -/
theorem current_streak_correct (entryDates : List Int) (today : Int) (h : entryDates ≠ []) :
    (calculate_streaks entryDates today).1 = specCurrentStreak today entryDates := by
  obtain ⟨e, es, rfl⟩ : ∃ e es, entryDates = e :: es := by
    cases entryDates with
    | nil => exact absurd rfl h
    | cons e es => exact ⟨e, es, rfl⟩
  cases hL : sortDescDedup (e :: es) with
  | nil => exact absurd hL (sortDescDedup_ne_nil _ h)
  | cons a rest =>
    have hmax : listMaxI (e :: es) = a := head_sortDescDedup_eq_max _ a rest hL
    have hcode : (calculate_streaks (e :: es) today).1 =
        (if a = today ∨ a = today - 1 then runLen (a :: rest) else 0) := by
      unfold calculate_streaks
      rw [hL]
    have hspec : specCurrentStreak today (e :: es) =
        (if a = today ∨ a = today - 1
         then walkBack (e :: es) (e :: es).length a else 0) := by
      show (if listMaxI (e :: es) = today ∨ listMaxI (e :: es) = today - 1
            then walkBack (e :: es) (e :: es).length (listMaxI (e :: es)) else 0) = _
      rw [hmax]
    rw [hcode, hspec]
    by_cases hc : a = today ∨ a = today - 1
    · rw [if_pos hc, if_pos hc]
      have hchain := chain_sortDescDedup (e :: es)
      rw [hL] at hchain
      have hlen : (a :: rest).length ≤ (e :: es).length := by
        have h1 := length_sortDescDedup_le (e :: es)
        rw [hL] at h1
        exact h1
      have h1 : walkBack (e :: es) (e :: es).length a =
          walkBack (a :: rest) (e :: es).length a :=
        walkBack_congr _ _ (fun x => by rw [← hL, mem_sortDescDedup]) _ _
      rw [h1, runLen_eq_walkBack a rest _ hchain hlen]
    · rw [if_neg hc, if_neg hc]

/-- C4 witness: entries on days 100, 99, 98, 95 with today = 100 (the
claim's today, today-1, today-2, today-5 example): the streaks agree and the
current streak is 3. -/
theorem current_streak_correct_witness :
    (calculate_streaks [100, 99, 98, 95] 100).1 = specCurrentStreak 100 [100, 99, 98, 95] ∧
    (calculate_streaks [100, 99, 98, 95] 100).1 = 3 :=
  ⟨current_streak_correct [100, 99, 98, 95] 100 (by decide), by decide⟩

/-! ## C5 -/

/-- C5: for every non-empty entry history, the code's longest streak equals
the spec's: the maximum run length of consecutive calendar dates each
containing at least one entry, over the entire history (the maximum over all
entry dates of the backward walk from that date).  (The witness instantiates
the claim's example: dates today-5, today-6, today-7 give longest streak 3
and current streak 0.) -/
theorem longest_streak_correct (entryDates : List Int) (today : Int) (h : entryDates ≠ []) :
    (calculate_streaks entryDates today).2 = specLongestStreak entryDates := by
  cases hL : sortDescDedup entryDates with
  | nil => exact absurd hL (sortDescDedup_ne_nil _ h)
  | cons a rest =>
    have hchain := chain_sortDescDedup entryDates
    rw [hL] at hchain
    have hlen : (a :: rest).length ≤ entryDates.length := by
      have h1 := length_sortDescDedup_le entryDates
      rw [hL] at h1
      exact h1
    have hcode : (calculate_streaks entryDates today).2 = longestScan (a :: rest) := by
      unfold calculate_streaks
      rw [hL]
    have hmem1 : ∀ x : Int, x ∈ a :: rest ↔ x ∈ entryDates := fun x => by
      rw [← hL, mem_sortDescDedup]
    have hmapc : (a :: rest).map (fun d => walkBack (a :: rest) entryDates.length d) =
        (a :: rest).map (fun d => walkBack entryDates entryDates.length d) :=
      List.map_congr_left (fun d _ => walkBack_congr _ _ hmem1 _ _)
    rw [hcode, longestScan_eq_maxRunLen,
        maxRunLen_eq_listMax (a :: rest) entryDates.length hchain hlen, hmapc]
    unfold specLongestStreak
    exact listMaxNat_map_eq _ _ _ (fun x => by rw [hmem1 x, List.mem_dedup]) (by simp)

/-- C5 witness: entries on days 95, 94, 93 with today = 100 (the claim's
today-5, today-6, today-7 example): the longest streaks agree, the longest
streak is 3 and the current streak is 0. -/
theorem longest_streak_correct_witness :
    (calculate_streaks [95, 94, 93] 100).2 = specLongestStreak [95, 94, 93] ∧
    (calculate_streaks [95, 94, 93] 100).2 = 3 ∧
    (calculate_streaks [95, 94, 93] 100).1 = 0 :=
  ⟨longest_streak_correct [95, 94, 93] 100 (by decide), by decide, by decide⟩

/-! ## C10 -/

/-- C10: for every entry history (empty or not) and every value of today,
the current streak computed by the statistics engine is at most the longest
streak: the current streak is either 0 or the prefix run of the sorted
distinct dates, and the longest-streak scan computes the maximum prefix run
over all suffixes, which dominates it. -/
theorem current_streak_le_longest (entryDates : List Int) (today : Int) :
    (calculate_streaks entryDates today).1 ≤ (calculate_streaks entryDates today).2 := by
  unfold calculate_streaks
  cases hL : sortDescDedup entryDates with
  | nil => simp
  | cons a rest =>
    show (if a = today ∨ a = today - 1 then runLen (a :: rest) else 0) ≤
      longestScan (a :: rest)
    rw [longestScan_eq_maxRunLen]
    by_cases hc : a = today ∨ a = today - 1
    · rw [if_pos hc]
      show runLen (a :: rest) ≤ max (runLen (a :: rest)) (maxRunLen rest)
      exact Nat.le_max_left _ _
    · rw [if_neg hc]
      exact Nat.zero_le _

/-- C7 witness: on a concrete sentence, "work" is among the extracted
keywords and is a qualifying non-stop-word token of the text. -/
theorem extract_keywords_spec_witness :
    "work" ∈ extract_keywords "Today was really wonderful wonderful day work work work and happy thoughts" 5 ∧
    "work" ∈ filtered_words "Today was really wonderful wonderful day work work work and happy thoughts" :=
  ⟨by decide,
   (extract_keywords_spec "Today was really wonderful wonderful day work work work and happy thoughts").2.1
     "work" (by decide)⟩
